import Mathlib

set_option maxHeartbeats 1000000
set_option maxRecDepth 7000

namespace Flashgen

/-! Shallow embedding of src/flashcard_generator.py.  Strings are modelled as
lists of characters where index arithmetic matters (the chunker) and as Lean
strings elsewhere.  Machine integers are modelled as Int/Nat; Python ints are
unbounded so no modular arithmetic is needed. -/

/-- Configuration constant CHUNK_SIZE from line 13 of the source. -/
def CHUNK_SIZE : Nat := 3000

/-- Configuration constant MAX_TOKENS from line 12 of the source. -/
def MAX_TOKENS : Int := 4096

/-- Configuration constant FLASHCARDS_PER_CHUNK from line 14 of the source. -/
def FLASHCARDS_PER_CHUNK : Nat := 5

/-- Configuration constant DEFAULT_MODEL from line 11 of the source. -/
def DEFAULT_MODEL : String := "gpt-3.5-turbo"

/-- Python str whitespace, restricted to the ASCII range: the characters
removed by str.lstrip() with no arguments.  (Python also strips some
non-ASCII Unicode whitespace; the texts this development reasons about only
involve the ASCII cases.) -/
def pyIsSpace (c : Char) : Bool :=
  c = ' ' || c = '\t' || c = '\n' || c = '\r' || c = '\x0b' || c = '\x0c'

/-- Model of content.lstrip() on line 50 of the source. -/
def lstrip (s : List Char) : List Char := s.dropWhile pyIsSpace

/-- Index of the last newline character of a list, if any.  Helper for the
model of str.rfind. -/
def lastNewlineIdx : List Char → Option Nat
  | [] => none
  | c :: cs =>
    match lastNewlineIdx cs with
    | some j => some (j + 1)
    | none => if c = '\n' then some 0 else none

/-- Model of content.rfind(newline, 0, stop) on line 46 of the source: the
highest index i with i < stop at which content holds a newline, if any
(Python returns -1 when there is none; we return none). -/
def rfindNewline (content : List Char) (stop : Nat) : Option Nat :=
  lastNewlineIdx (content.take stop)

/-- The split position chosen by one iteration of the chunking loop
(lines 46-48 of the source): the last newline before chunkSize, or
chunkSize itself when there is none. -/
def splitIndex (chunkSize : Nat) (content : List Char) : Nat :=
  match rfindNewline content chunkSize with
  | some i => i
  | none => chunkSize

/-- Fuel-indexed model of the while loop of FlashcardGenerator.chunk_content
(lines 38-51 of the source).  The fuel bounds the number of loop iterations;
when chunkSize is at least 1 every iteration removes at least one character,
so content.length is always enough fuel (see the lemmas below, all of which
assume enough fuel). -/
def chunkAux (chunkSize : Nat) : Nat → List Char → List (List Char)
  | 0, _ => []
  | fuel + 1, content =>
    if content = [] then []
    else if content.length ≤ chunkSize then [content]
    else
      content.take (splitIndex chunkSize content) ::
        chunkAux chunkSize fuel (lstrip (content.drop (splitIndex chunkSize content)))

/-- Model of FlashcardGenerator.chunk_content (lines 38-51 of the source),
generalised over the chunk size (the source fixes chunkSize = CHUNK_SIZE).
The while loop runs at most content.length iterations, which is supplied as
fuel. -/
def chunk_content (chunkSize : Nat) (content : List Char) : List (List Char) :=
  chunkAux chunkSize content.length content

/-! ### Basic lemmas about the chunker helpers -/

theorem lastNewlineIdx_spec {l : List Char} {i : Nat} (h : lastNewlineIdx l = some i) :
    i < l.length ∧ l.getD i 'a' = '\n' := by
  induction l generalizing i with
  | nil => simp [lastNewlineIdx] at h
  | cons c cs ih =>
    simp only [lastNewlineIdx] at h
    cases hrec : lastNewlineIdx cs with
    | some j =>
      rw [hrec] at h
      cases h
      have := ih hrec
      constructor
      · exact Nat.succ_lt_succ this.1
      · simpa using this.2
    | none =>
      rw [hrec] at h
      by_cases hc : c = '\n'
      · rw [if_pos hc] at h
        cases h
        exact ⟨Nat.succ_pos _, by simpa using hc⟩
      · rw [if_neg hc] at h
        cases h

theorem getD_take (l : List Char) (n i : Nat) (d : Char) (h : i < n) :
    (l.take n).getD i d = l.getD i d := by
  induction l generalizing n i with
  | nil => simp
  | cons c cs ih =>
    cases n with
    | zero => omega
    | succ n =>
      cases i with
      | zero => simp
      | succ i =>
        simp only [List.take_succ_cons, List.getD_cons_succ]
        exact ih n i (Nat.lt_of_succ_lt_succ h)

theorem rfindNewline_spec {content : List Char} {stop i : Nat}
    (h : rfindNewline content stop = some i) :
    i < stop ∧ i < content.length ∧ content.getD i 'a' = '\n' := by
  have hs := lastNewlineIdx_spec h
  have hlen : (content.take stop).length = min stop content.length := by simp
  rw [hlen] at hs
  have h1 : i < stop := lt_of_lt_of_le hs.1 (min_le_left _ _)
  have h2 : i < content.length := lt_of_lt_of_le hs.1 (min_le_right _ _)
  refine ⟨h1, h2, ?_⟩
  have := getD_take content stop i 'a' h1
  rw [← this]
  exact hs.2

theorem splitIndex_le (chunkSize : Nat) (content : List Char) :
    splitIndex chunkSize content ≤ chunkSize := by
  unfold splitIndex
  cases h : rfindNewline content chunkSize with
  | some i => exact Nat.le_of_lt (rfindNewline_spec h).1
  | none => exact Nat.le_refl _

theorem splitIndex_eq_zero {chunkSize : Nat} {content : List Char}
    (hcs : 1 ≤ chunkSize) (h : splitIndex chunkSize content = 0) :
    content.getD 0 'a' = '\n' := by
  cases hr : rfindNewline content chunkSize with
  | some i =>
    simp only [splitIndex, hr] at h
    subst h
    exact (rfindNewline_spec hr).2.2
  | none =>
    simp only [splitIndex, hr] at h
    omega

theorem dropWhile_cons_eq_self {p : Char → Bool} {a : Char} {t : List Char}
    (h : (a :: t).dropWhile p = a :: t) : p a = false := by
  by_contra hp
  have hpa : p a = true := by
    cases hpa : p a
    · exact absurd hpa hp
    · rfl
  rw [List.dropWhile_cons_of_pos hpa] at h
  have h1 : (t.dropWhile p).length ≤ t.length := (List.dropWhile_sublist p).length_le
  have h2 : (t.dropWhile p).length = t.length + 1 := by rw [h]; simp
  omega

theorem dropWhile_idem (p : Char → Bool) (l : List Char) :
    (l.dropWhile p).dropWhile p = l.dropWhile p := by
  induction l with
  | nil => simp
  | cons a t ih =>
    by_cases hp : p a = true
    · rw [List.dropWhile_cons_of_pos hp]
      exact ih
    · have hp' : ¬ p a := by simpa using hp
      rw [List.dropWhile_cons_of_neg hp', List.dropWhile_cons_of_neg hp']

/-- When the chunk size is positive, the remainder handed to the next loop
iteration is strictly shorter than the current content. -/
theorem chunk_step_shorter {chunkSize : Nat} {content : List Char}
    (hcs : 1 ≤ chunkSize) (hne : content ≠ []) (hlong : ¬ content.length ≤ chunkSize) :
    (lstrip (content.drop (splitIndex chunkSize content))).length < content.length := by
  by_cases hz : splitIndex chunkSize content = 0
  · have hnl := splitIndex_eq_zero hcs hz
    cases content with
    | nil => exact absurd rfl hne
    | cons a t =>
      simp only [List.getD_cons_zero] at hnl
      rw [hz]
      simp only [List.drop_zero, lstrip]
      have : pyIsSpace a = true := by rw [hnl]; rfl
      rw [List.dropWhile_cons_of_pos this]
      have := (List.dropWhile_sublist (l := t) pyIsSpace).length_le
      simp only [List.length_cons]
      omega
  · have h1 : 1 ≤ splitIndex chunkSize content := Nat.one_le_iff_ne_zero.mpr hz
    have hdrop : (content.drop (splitIndex chunkSize content)).length
        = content.length - splitIndex chunkSize content := by simp
    have := (List.dropWhile_sublist (l := content.drop (splitIndex chunkSize content))
      pyIsSpace).length_le
    unfold lstrip
    omega

/-! ### Reconstruction of the input from the chunks -/

/-- The reconstruction shape asserted by the spec for the chunker: the
string is chunk 0, a whitespace-only run, chunk 1, another whitespace-only
run, and so on, ending with the last chunk, with nothing after it. -/
inductive Reassembles : List (List Char) → List Char → Prop
  | nil : Reassembles [] []
  | last (c : List Char) : Reassembles [c] c
  | cons {c1 c2 : List Char} {rest2 : List (List Char)} {w rest : List Char}
      (hw : ∀ x ∈ w, pyIsSpace x = true) (h : Reassembles (c2 :: rest2) rest) :
      Reassembles (c1 :: c2 :: rest2) (c1 ++ w ++ rest)

theorem reassembles_of_nil {s : List Char} (h : Reassembles [] s) : s = [] := by
  cases h
  rfl

theorem reassembles_of_single {c s : List Char} (h : Reassembles [c] s) : s = c := by
  cases h
  rfl

/-- Unfolding equation for the recursive case of the chunking loop. -/
theorem chunkAux_step {chunkSize fuel : Nat} {content : List Char}
    (hne : content ≠ []) (hlong : ¬ content.length ≤ chunkSize) :
    chunkAux chunkSize (fuel + 1) content
      = content.take (splitIndex chunkSize content) ::
        chunkAux chunkSize fuel (lstrip (content.drop (splitIndex chunkSize content))) := by
  simp only [chunkAux]
  rw [if_neg hne, if_neg hlong]

/-- Unfolding equation for the final iteration of the chunking loop. -/
theorem chunkAux_small {chunkSize fuel : Nat} {content : List Char}
    (hne : content ≠ []) (hsmall : content.length ≤ chunkSize) :
    chunkAux chunkSize (fuel + 1) content = [content] := by
  simp only [chunkAux]
  rw [if_neg hne, if_pos hsmall]

/-- Core reconstruction lemma: given enough fuel and a positive chunk size,
the input is the chunks interleaved with whitespace-only runs, followed by a
final whitespace-only run that the loop discards. -/
theorem chunkAux_reassembles (chunkSize : Nat) (hcs : 1 ≤ chunkSize) :
    ∀ fuel content, content.length ≤ fuel →
    ∃ s w, (∀ x ∈ w, pyIsSpace x = true) ∧ content = s ++ w ∧
      Reassembles (chunkAux chunkSize fuel content) s := by
  intro fuel
  induction fuel with
  | zero =>
    intro content hlen
    have hnil : content = [] := List.eq_nil_of_length_eq_zero (Nat.le_zero.mp hlen)
    subst hnil
    exact ⟨[], [], by simp, by simp, Reassembles.nil⟩
  | succ fuel ih =>
    intro content hlen
    by_cases hne : content = []
    · subst hne
      exact ⟨[], [], by simp, by simp, by simpa [chunkAux] using Reassembles.nil⟩
    · by_cases hsmall : content.length ≤ chunkSize
      · have hval : chunkAux chunkSize (fuel + 1) content = [content] :=
          chunkAux_small hne hsmall
        exact ⟨content, [], by simp, by simp, hval ▸ Reassembles.last content⟩
      · have hstep := @chunkAux_step chunkSize fuel content hne hsmall
        have hshort := chunk_step_shorter hcs hne hsmall
        set A := content.take (splitIndex chunkSize content) with hA
        set R := content.drop (splitIndex chunkSize content) with hR
        set TW := R.takeWhile pyIsSpace with hTW
        set L := lstrip R with hL
        have hfuel : L.length ≤ fuel := by omega
        obtain ⟨s, w, hw, heq, hre⟩ := ih L hfuel
        have hsplit : content = A ++ (TW ++ L) := by
          rw [hA, hTW, hL, hR]
          unfold lstrip
          rw [List.takeWhile_append_dropWhile, List.take_append_drop]
        have htw : ∀ x ∈ TW, pyIsSpace x = true := fun x hx => List.mem_takeWhile_imp hx
        cases hcase : chunkAux chunkSize fuel L with
        | nil =>
          rw [hcase] at hre
          have hs : s = [] := reassembles_of_nil hre
          subst hs
          refine ⟨A, TW ++ w, ?_, ?_, ?_⟩
          · intro x hx
            rcases List.mem_append.mp hx with hx1 | hx2
            · exact htw x hx1
            · exact hw x hx2
          · rw [hsplit, heq]
            simp
          · rw [hstep, hcase]
            exact Reassembles.last _
        | cons c2 rest2 =>
          rw [hcase] at hre
          refine ⟨A ++ TW ++ s, w, hw, ?_, ?_⟩
          · rw [hsplit, heq]
            simp [List.append_assoc]
          · rw [hstep, hcase]
            exact Reassembles.cons htw hre

/-- C1 (amended form): for every positive chunk size, the input is the
returned chunks with whitespace-only runs reinserted at the split points,
followed by one final whitespace-only run that the chunker drops outright. -/
theorem chunker_reconstruction_with_tail (chunkSize : Nat) (content : List Char)
    (hcs : 1 ≤ chunkSize) :
    ∃ s w, (∀ x ∈ w, pyIsSpace x = true) ∧ content = s ++ w ∧
      Reassembles (chunk_content chunkSize content) s :=
  chunkAux_reassembles chunkSize hcs content.length content (Nat.le_refl _)

/-- Witness for the amended C1 theorem at a concrete input. -/
theorem chunker_reconstruction_with_tail_witness :
    ∃ s w, (∀ x ∈ w, pyIsSpace x = true) ∧ ('a' :: 'b' :: '\n' :: ' ' :: []) = s ++ w ∧
      Reassembles (chunk_content 2 ('a' :: 'b' :: '\n' :: ' ' :: [])) s :=
  chunker_reconstruction_with_tail 2 ('a' :: 'b' :: '\n' :: ' ' :: []) (by decide)

/-- Concrete input on which the chunker drops a whitespace-only tail. -/
def c1Cex : List Char := List.replicate 3000 'a' ++ ['\n', ' ']

theorem chunkAux_nil (chunkSize fuel : Nat) : chunkAux chunkSize fuel [] = [] := by
  cases fuel with
  | zero => rfl
  | succ fuel => simp [chunkAux]

theorem lastNewlineIdx_cons (c : Char) (t : List Char) :
    lastNewlineIdx (c :: t)
      = match lastNewlineIdx t with
        | some j => some (j + 1)
        | none => if c = '\n' then some 0 else none := rfl

theorem lastNewlineIdx_eq_none {l : List Char} (h : ∀ c ∈ l, c ≠ '\n') :
    lastNewlineIdx l = none := by
  induction l with
  | nil => rfl
  | cons c t ih =>
    have ht := ih (fun x hx => h x (List.mem_cons_of_mem _ hx))
    rw [lastNewlineIdx_cons, ht]
    exact if_neg (h c (List.mem_cons_self _ _))

theorem c1Cex_chunks : chunk_content CHUNK_SIZE c1Cex = [List.replicate 3000 'a'] := by
  have hA : c1Cex = List.replicate 3000 'a' ++ ['\n', ' '] := rfl
  have hlen : c1Cex.length = 3002 := by
    rw [hA, List.length_append, List.length_replicate]
    rfl
  have hne : c1Cex ≠ [] := by
    intro h0
    rw [h0] at hlen
    exact absurd hlen (by decide)
  have hlong : ¬ c1Cex.length ≤ CHUNK_SIZE := by rw [hlen]; decide
  have htake : c1Cex.take 3000 = List.replicate 3000 'a' := by
    rw [hA]; exact List.take_left' (List.length_replicate 3000 'a')
  have hdrop : c1Cex.drop 3000 = ['\n', ' '] := by
    rw [hA]; exact List.drop_left' (List.length_replicate 3000 'a')
  have hnone : rfindNewline c1Cex CHUNK_SIZE = none := by
    unfold rfindNewline
    rw [show CHUNK_SIZE = 3000 from rfl, htake]
    refine lastNewlineIdx_eq_none ?_
    intro c hcmem
    rw [List.eq_of_mem_replicate hcmem]
    decide
  have hsplit : splitIndex CHUNK_SIZE c1Cex = 3000 := by
    unfold splitIndex
    rw [hnone]
    rfl
  unfold chunk_content
  rw [hlen, show (3002 : Nat) = 3001 + 1 from rfl, chunkAux_step hne hlong, hsplit, htake, hdrop]
  rw [show lstrip ['\n', ' '] = [] from rfl, chunkAux_nil]

/-- C1 (counterexample): at an input of 3000 letters followed by a newline
and a space, the chunker of the source (chunk size 3000) returns a single
chunk of the 3000 letters, so no reinsertion of whitespace between
consecutive chunks can rebuild the input: the trailing two whitespace
characters are gone. -/
theorem chunker_reconstruction_counterexample :
    ¬ Reassembles (chunk_content CHUNK_SIZE c1Cex) c1Cex := by
  rw [c1Cex_chunks]
  intro h
  have heq := reassembles_of_single h
  have hlen := congrArg List.length heq
  simp only [c1Cex, List.length_append, List.length_replicate, List.length_cons,
    List.length_nil] at hlen
  omega

/-! ### Shape of the chunker output -/

theorem chunkAux_chunk_le (chunkSize : Nat) :
    ∀ fuel content, ∀ chunk ∈ chunkAux chunkSize fuel content, chunk.length ≤ chunkSize := by
  intro fuel
  induction fuel with
  | zero =>
    intro content chunk hmem
    simp only [chunkAux] at hmem
    cases hmem
  | succ fuel ih =>
    intro content chunk hmem
    by_cases hne : content = []
    · subst hne
      rw [chunkAux_nil] at hmem
      cases hmem
    · by_cases hsmall : content.length ≤ chunkSize
      · rw [chunkAux_small hne hsmall] at hmem
        rw [List.mem_singleton.mp hmem]
        exact hsmall
      · rw [chunkAux_step hne hsmall] at hmem
        rcases List.mem_cons.mp hmem with h1 | h2
        · rw [h1, List.length_take]
          exact le_trans (min_le_left _ _) (splitIndex_le chunkSize content)
        · exact ih _ chunk h2

/-- C7: the chunker returns nothing on empty input, a single chunk equal to
the input when the input fits in one chunk, and in all cases every returned
chunk has length at most the chunk size. -/
theorem chunker_output_shape (chunkSize : Nat) (content : List Char) (hcs : 1 ≤ chunkSize) :
    (content = [] → chunk_content chunkSize content = []) ∧
    (1 ≤ content.length → content.length ≤ chunkSize → chunk_content chunkSize content = [content]) ∧
    (∀ chunk ∈ chunk_content chunkSize content, chunk.length ≤ chunkSize) := by
  refine ⟨?_, ?_, ?_⟩
  · intro h
    subst h
    rfl
  · intro h1 hsmall
    cases content with
    | nil => simp at h1
    | cons a t =>
      exact chunkAux_small (List.cons_ne_nil a t) hsmall
  · exact chunkAux_chunk_le chunkSize content.length content

/-- Witness for the C7 theorem at a concrete input. -/
theorem chunker_output_shape_witness :
    ((('a' :: []) : List Char) = [] → chunk_content 2 ('a' :: []) = []) ∧
    (1 ≤ (('a' :: []) : List Char).length → (('a' :: []) : List Char).length ≤ 2 →
      chunk_content 2 ('a' :: []) = [('a' :: [])]) ∧
    (∀ chunk ∈ chunk_content 2 ('a' :: []), chunk.length ≤ 2) :=
  chunker_output_shape 2 ('a' :: []) (by decide)

/-! ### Chunks after the first one -/

/-- Every chunk produced from an already left-stripped content is non-empty
and starts with a non-whitespace character (positive chunk size, enough
fuel). -/
theorem chunkAux_lstripped_chunks (chunkSize : Nat) (hcs : 1 ≤ chunkSize) :
    ∀ fuel content, content.length ≤ fuel → lstrip content = content →
    ∀ chunk ∈ chunkAux chunkSize fuel content, ∃ a t, chunk = a :: t ∧ pyIsSpace a = false := by
  intro fuel
  induction fuel with
  | zero =>
    intro content hlen hstrip chunk hmem
    simp only [chunkAux] at hmem
    cases hmem
  | succ fuel ih =>
    intro content hlen hstrip chunk hmem
    unfold lstrip at hstrip
    by_cases hne : content = []
    · subst hne
      rw [chunkAux_nil] at hmem
      cases hmem
    · by_cases hsmall : content.length ≤ chunkSize
      · rw [chunkAux_small hne hsmall] at hmem
        rw [List.mem_singleton.mp hmem]
        cases content with
        | nil => exact absurd rfl hne
        | cons a t => exact ⟨a, t, rfl, dropWhile_cons_eq_self hstrip⟩
      · rw [chunkAux_step hne hsmall] at hmem
        rcases List.mem_cons.mp hmem with h1 | h2
        · have hk : splitIndex chunkSize content ≠ 0 := by
            intro h0
            have hnl := splitIndex_eq_zero hcs h0
            cases content with
            | nil => exact hne rfl
            | cons a t =>
              simp only [List.getD_cons_zero] at hnl
              have hfa := dropWhile_cons_eq_self hstrip
              rw [hnl] at hfa
              exact absurd hfa (by decide)
          obtain ⟨m, hm⟩ := Nat.exists_eq_succ_of_ne_zero hk
          cases content with
          | nil => exact absurd rfl hne
          | cons a t =>
            rw [hm, List.take_succ_cons] at h1
            exact ⟨a, t.take m, h1, dropWhile_cons_eq_self hstrip⟩
        · have hshort := chunk_step_shorter hcs hne hsmall
          refine ih (lstrip (content.drop (splitIndex chunkSize content))) (by omega) ?_ chunk h2
          unfold lstrip
          exact dropWhile_idem _ _

/-- Every chunk after the first one comes from a left-stripped remainder,
so it is non-empty and starts with a non-whitespace character. -/
theorem chunk_content_tail_shape (chunkSize : Nat) (content : List Char) (hcs : 1 ≤ chunkSize) :
    ∀ chunk ∈ (chunk_content chunkSize content).tail,
      ∃ a t, chunk = a :: t ∧ pyIsSpace a = false := by
  intro chunk hmem
  by_cases hne : content = []
  · subst hne
    simp only [chunk_content, List.length_nil, chunkAux, List.tail_nil] at hmem
    cases hmem
  · by_cases hsmall : content.length ≤ chunkSize
    · cases content with
      | nil => exact absurd rfl hne
      | cons a t =>
        have hval : chunk_content chunkSize (a :: t) = [a :: t] :=
          chunkAux_small (List.cons_ne_nil a t) hsmall
        rw [hval] at hmem
        simp only [List.tail_cons] at hmem
        cases hmem
    · cases content with
      | nil => exact absurd rfl hne
      | cons a t =>
        have hstep : chunk_content chunkSize (a :: t)
            = (a :: t).take (splitIndex chunkSize (a :: t)) ::
              chunkAux chunkSize t.length (lstrip ((a :: t).drop (splitIndex chunkSize (a :: t)))) := by
          show chunkAux chunkSize (t.length + 1) (a :: t) = _
          exact chunkAux_step hne hsmall
        rw [hstep] at hmem
        simp only [List.tail_cons] at hmem
        have hshort := chunk_step_shorter hcs hne hsmall
        simp only [List.length_cons] at hshort
        exact chunkAux_lstripped_chunks chunkSize hcs t.length
          (lstrip ((a :: t).drop (splitIndex chunkSize (a :: t))))
          (by omega) (by unfold lstrip; exact dropWhile_idem _ _) chunk hmem

/-- C8 (amended form): every chunk except possibly the first is non-empty. -/
theorem chunker_tail_nonempty (chunkSize : Nat) (content : List Char) (hcs : 1 ≤ chunkSize) :
    ∀ chunk ∈ (chunk_content chunkSize content).tail, chunk ≠ [] := by
  intro chunk hmem
  obtain ⟨a, t, heq, _⟩ := chunk_content_tail_shape chunkSize content hcs chunk hmem
  rw [heq]
  exact List.cons_ne_nil a t

/-- Witness for the amended C8 theorem at a concrete input: chunking abcd
with chunk size 2 gives chunks ab and cd, and cd is in the tail. -/
theorem chunker_tail_nonempty_witness : (['c', 'd'] : List Char) ≠ [] :=
  chunker_tail_nonempty 2 ['a', 'b', 'c', 'd'] (by decide) ['c', 'd'] (by decide)

/-- Concrete input on which the chunker emits an empty chunk: a newline
followed by 3001 letters. -/
def c8Cex : List Char := '\n' :: List.replicate 3001 'a'

/-- C8 (counterexample): on an input starting with a newline and longer than
the chunk size, the source's chunker emits the empty string as its first
chunk (rfind returns index 0, so the slice before the split point is empty). -/
theorem chunker_nonempty_counterexample :
    ∃ chunk ∈ chunk_content CHUNK_SIZE c8Cex, chunk = [] := by
  have hlen : c8Cex.length = 3002 := by
    show ('\n' :: List.replicate 3001 'a').length = 3002
    rw [List.length_cons, List.length_replicate]
  have hne : c8Cex ≠ [] := by
    intro h0
    rw [h0] at hlen
    exact absurd hlen (by decide)
  have hlong : ¬ c8Cex.length ≤ CHUNK_SIZE := by rw [hlen]; decide
  have hsome : rfindNewline c8Cex CHUNK_SIZE = some 0 := by
    show lastNewlineIdx (List.take CHUNK_SIZE ('\n' :: List.replicate 3001 'a')) = some 0
    rw [show CHUNK_SIZE = 2999 + 1 from rfl, List.take_succ_cons]
    have hX : lastNewlineIdx (List.take 2999 (List.replicate 3001 'a')) = none := by
      refine lastNewlineIdx_eq_none ?_
      intro c hc
      rw [List.eq_of_mem_replicate (List.take_subset 2999 _ hc)]
      decide
    rw [lastNewlineIdx_cons, hX]
    rfl
  have hsplit : splitIndex CHUNK_SIZE c8Cex = 0 := by
    unfold splitIndex
    rw [hsome]
  refine ⟨[], ?_, rfl⟩
  unfold chunk_content
  rw [hlen, show (3002 : Nat) = 3001 + 1 from rfl, chunkAux_step hne hlong, hsplit,
    List.take_zero]
  exact List.mem_cons_self _ _

/-- C10: every chunk except possibly the first begins with a non-whitespace
character: each remainder is left-stripped before being chunked further. -/
theorem chunker_tail_no_leading_whitespace (chunkSize : Nat) (content : List Char)
    (hcs : 1 ≤ chunkSize) :
    ∀ chunk ∈ (chunk_content chunkSize content).tail,
      ∃ a t, chunk = a :: t ∧ pyIsSpace a = false :=
  chunk_content_tail_shape chunkSize content hcs

/-- Witness for the C10 theorem at a concrete input. -/
theorem chunker_tail_no_leading_whitespace_witness :
    ∃ a t, (['c', 'd'] : List Char) = a :: t ∧ pyIsSpace a = false :=
  chunker_tail_no_leading_whitespace 2 ['a', 'b', 'c', 'd'] (by decide) ['c', 'd'] (by decide)

/-! ### Flashcards and the grouper -/

/-- Model of a flashcard dict as the pipeline manipulates it: the four known
keys, each possibly absent (Python dicts can lack keys; card.get supplies a
default for the topic). -/
structure Flashcard where
  question : Option String
  answer : Option String
  difficulty : Option String
  topic : Option String
deriving DecidableEq, Repr

/-- Model of card.get with the topic key and default Uncategorized, line 135
of the source.  Note that dict.get only substitutes the default when the key
is absent; an empty-string topic is returned as the empty string. -/
def getTopic (card : Flashcard) : String := card.topic.getD "Uncategorized"

/-- One iteration of the loop of FlashcardGenerator.group_by_topic
(lines 134-138 of the source): append the card to its topic's bucket,
creating the bucket at the end of the dict on first sight of the topic.
Python dicts preserve insertion order, modelled as an association list. -/
def addCard (topics : List (String × List Flashcard)) (card : Flashcard) :
    List (String × List Flashcard) :=
  if topics.any (fun p => p.1 == getTopic card) then
    topics.map (fun p => if p.1 == getTopic card then (p.1, p.2 ++ [card]) else p)
  else topics ++ [(getTopic card, [card])]

/-- Model of FlashcardGenerator.group_by_topic (lines 131-139 of the source). -/
def group_by_topic (flashcards : List Flashcard) : List (String × List Flashcard) :=
  flashcards.foldl addCard []

/-- Loop invariant of group_by_topic over the cards seen so far: bucket keys
are distinct, every bucket holds exactly the processed cards of its topic in
order, and every processed card's topic has a bucket. -/
def GroupInv (cards : List Flashcard) (g : List (String × List Flashcard)) : Prop :=
  (g.map Prod.fst).Nodup ∧
  (∀ p ∈ g, p.2 = cards.filter (fun c => getTopic c == p.1)) ∧
  (∀ c ∈ cards, ∃ p ∈ g, p.1 = getTopic c)

theorem filter_singleton_of_pos {p : Flashcard → Bool} {a : Flashcard} (h : p a = true) :
    List.filter p [a] = [a] := by
  rw [List.filter_cons_of_pos h, List.filter_nil]

theorem filter_singleton_of_neg {p : Flashcard → Bool} {a : Flashcard} (h : ¬ p a = true) :
    List.filter p [a] = [] := by
  rw [List.filter_cons_of_neg h]
  exact List.filter_nil _

theorem addCard_inv {cards : List Flashcard} {g : List (String × List Flashcard)}
    (h : GroupInv cards g) (card : Flashcard) :
    GroupInv (cards ++ [card]) (addCard g card) := by
  obtain ⟨hnd, hfil, hcov⟩ := h
  by_cases hany : g.any (fun p => p.1 == getTopic card) = true
  · have hval : addCard g card
        = g.map (fun p => if p.1 == getTopic card then (p.1, p.2 ++ [card]) else p) := by
      unfold addCard
      rw [if_pos hany]
    have hkeys : (addCard g card).map Prod.fst = g.map Prod.fst := by
      rw [hval, List.map_map]
      refine List.map_congr_left ?_
      intro p _
      simp only [Function.comp_apply]
      by_cases hp : (p.1 == getTopic card) = true
      · rw [if_pos hp]
      · rw [if_neg hp]
    refine ⟨by rw [hkeys]; exact hnd, ?_, ?_⟩
    · intro q hq
      rw [hval] at hq
      obtain ⟨p, hpg, hpq⟩ := List.mem_map.mp hq
      by_cases hp : (p.1 == getTopic card) = true
      · rw [if_pos hp] at hpq
        have hkey : p.1 = getTopic card := eq_of_beq hp
        have hpredcard : (getTopic card == p.1) = true := by
          rw [hkey]
          exact beq_self_eq_true _
        rw [← hpq]
        show p.2 ++ [card] = (cards ++ [card]).filter (fun c => getTopic c == p.1)
        rw [List.filter_append,
          filter_singleton_of_pos (p := fun c => getTopic c == p.1) (a := card) hpredcard,
          hfil p hpg]
      · rw [if_neg hp] at hpq
        rw [← hpq]
        have hpredcard : ¬ ((getTopic card == p.1) = true) := by
          intro hc
          exact hp (by rw [beq_iff_eq.mpr (eq_of_beq hc).symm])
        show p.2 = (cards ++ [card]).filter (fun c => getTopic c == p.1)
        rw [List.filter_append,
          filter_singleton_of_neg (p := fun c => getTopic c == p.1) (a := card) hpredcard,
          List.append_nil, hfil p hpg]
    · intro c hc
      rcases List.mem_append.mp hc with hc1 | hc2
      · obtain ⟨p, hpg, hpk⟩ := hcov c hc1
        refine ⟨if p.1 == getTopic card then (p.1, p.2 ++ [card]) else p, ?_, ?_⟩
        · rw [hval]
          exact List.mem_map.mpr ⟨p, hpg, rfl⟩
        · by_cases hp : (p.1 == getTopic card) = true
          · rw [if_pos hp]
            exact hpk
          · rw [if_neg hp]
            exact hpk
      · have hcc : c = card := by simpa using hc2
        obtain ⟨p, hpg, hpk⟩ := List.any_eq_true.mp hany
        refine ⟨(p.1, p.2 ++ [card]), ?_, ?_⟩
        · rw [hval]
          refine List.mem_map.mpr ⟨p, hpg, ?_⟩
          rw [if_pos hpk]
        · rw [hcc]
          exact eq_of_beq hpk
  · have hnotany : ∀ p ∈ g, (p.1 == getTopic card) = false := by
      intro p hp
      by_contra hcon
      exact hany (List.any_eq_true.mpr ⟨p, hp, by simpa using hcon⟩)
    have hval : addCard g card = g ++ [(getTopic card, [card])] := by
      unfold addCard
      rw [if_neg (by simpa using hany)]
    have hnotkey : getTopic card ∉ g.map Prod.fst := by
      intro hmem
      obtain ⟨p, hpg, hpk⟩ := List.mem_map.mp hmem
      have hfalse := hnotany p hpg
      rw [beq_iff_eq.mpr hpk] at hfalse
      cases hfalse
    refine ⟨?_, ?_, ?_⟩
    · rw [hval, List.map_append]
      refine List.nodup_append.mpr ⟨hnd, by simp, ?_⟩
      intro a ha hb
      simp only [List.map_cons, List.map_nil, List.mem_singleton] at hb
      subst hb
      exact hnotkey ha
    · intro q hq
      rw [hval] at hq
      rcases List.mem_append.mp hq with hq1 | hq2
      · have hpredcard : ¬ ((getTopic card == q.1) = true) := by
          intro hc
          have hfalse := hnotany q hq1
          rw [beq_iff_eq.mpr (eq_of_beq hc).symm] at hfalse
          cases hfalse
        rw [List.filter_append,
          filter_singleton_of_neg (p := fun c => getTopic c == q.1) (a := card) hpredcard,
          List.append_nil, hfil q hq1]
      · have hq2' : q = (getTopic card, [card]) := by simpa using hq2
        subst hq2'
        have hnomatch : cards.filter (fun c => getTopic c == getTopic card) = [] := by
          rw [List.filter_eq_nil_iff]
          intro a ha hcon
          obtain ⟨p, hpg, hpk⟩ := hcov a ha
          have hfalse := hnotany p hpg
          rw [hpk, eq_of_beq hcon, beq_self_eq_true] at hfalse
          cases hfalse
        show [card] = (cards ++ [card]).filter (fun c => getTopic c == getTopic card)
        rw [List.filter_append, hnomatch,
          filter_singleton_of_pos (p := fun c => getTopic c == getTopic card) (a := card)
            (beq_self_eq_true _),
          List.nil_append]
    · intro c hc
      rcases List.mem_append.mp hc with hc1 | hc2
      · obtain ⟨p, hpg, hpk⟩ := hcov c hc1
        exact ⟨p, by rw [hval]; exact List.mem_append_left _ hpg, hpk⟩
      · have hcc : c = card := by simpa using hc2
        refine ⟨(getTopic card, [card]), by rw [hval]; simp, by rw [hcc]⟩

theorem groupInv_foldl (cards : List Flashcard) :
    ∀ pre g, GroupInv pre g → GroupInv (pre ++ cards) (cards.foldl addCard g) := by
  induction cards with
  | nil =>
    intro pre g h
    simpa using h
  | cons c cs ih =>
    intro pre g h
    have h1 := addCard_inv h c
    have h2 := ih (pre ++ [c]) (addCard g c) h1
    rw [List.append_assoc] at h2
    simpa using h2

theorem group_by_topic_inv (cards : List Flashcard) :
    GroupInv cards (group_by_topic cards) := by
  have h0 : GroupInv [] [] := ⟨List.nodup_nil, by simp, by simp⟩
  have := groupInv_foldl cards [] [] h0
  simpa [group_by_topic] using this

/-- Each card of the input sits in the bucket keyed by its own topic. -/
theorem mem_own_bucket {cards : List Flashcard} {card : Flashcard} (hmem : card ∈ cards) :
    ∃ p ∈ group_by_topic cards, p.1 = getTopic card ∧ card ∈ p.2 := by
  obtain ⟨_, hfil, hcov⟩ := group_by_topic_inv cards
  obtain ⟨p, hpg, hpk⟩ := hcov card hmem
  refine ⟨p, hpg, hpk, ?_⟩
  rw [hfil p hpg]
  refine List.mem_filter.mpr ⟨hmem, ?_⟩
  rw [hpk]
  exact beq_self_eq_true _

theorem count_flatten_list (ls : List (List Flashcard)) (x : Flashcard) :
    ls.flatten.count x = (ls.map (fun l => l.count x)).sum := by
  induction ls with
  | nil => rfl
  | cons l ls ih =>
    rw [List.flatten_cons, List.count_append, List.map_cons, List.sum_cons, ih]

theorem count_filter_if (l : List Flashcard) (x : Flashcard) (p : Flashcard → Bool) :
    (l.filter p).count x = if p x then l.count x else 0 := by
  induction l with
  | nil => simp
  | cons a t ih =>
    by_cases hpa : p a = true
    · rw [List.filter_cons_of_pos hpa, List.count_cons, List.count_cons, ih]
      by_cases hpx : p x = true
      · rw [if_pos hpx, if_pos hpx]
      · have hax : ¬ ((a == x) = true) := by
          intro hc
          exact hpx (by rw [← show a = x from eq_of_beq hc]; exact hpa)
        rw [if_neg hpx, if_neg hpx, if_neg hax]
    · rw [List.filter_cons_of_neg hpa, ih, List.count_cons]
      by_cases hpx : p x = true
      · have hax : ¬ ((a == x) = true) := by
          intro hc
          exact hpa (by rw [show a = x from eq_of_beq hc]; exact hpx)
        rw [if_pos hpx, if_pos hpx, if_neg hax, Nat.add_zero]
      · rw [if_neg hpx, if_neg hpx]

theorem sum_if_key (g : List (String × List Flashcard)) (k : String) (n : Nat) :
    (g.map (fun p => if (k == p.1) = true then n else 0)).sum
      = n * ((g.map Prod.fst).count k) := by
  induction g with
  | nil => simp
  | cons p g ih =>
    rw [List.map_cons, List.sum_cons, ih, List.map_cons, List.count_cons]
    by_cases hk : k = p.1
    · rw [if_pos (beq_iff_eq.mpr hk), if_pos (beq_iff_eq.mpr hk.symm), Nat.mul_add,
        Nat.mul_one]
      omega
    · rw [if_neg (by simpa using hk), if_neg (by simpa using fun hc => hk (hc.symm))]
      rw [Nat.add_zero, Nat.zero_add]

/-- The concatenation of the buckets is a permutation of the input list. -/
theorem group_flatten_perm (cards : List Flashcard) :
    ((group_by_topic cards).map Prod.snd).flatten.Perm cards := by
  obtain ⟨hnd, hfil, hcov⟩ := group_by_topic_inv cards
  rw [List.perm_iff_count]
  intro x
  rw [count_flatten_list, List.map_map]
  have hmapeq : (group_by_topic cards).map ((fun l => l.count x) ∘ Prod.snd)
      = (group_by_topic cards).map (fun p => if (getTopic x == p.1) = true then cards.count x else 0) := by
    refine List.map_congr_left ?_
    intro p hp
    simp only [Function.comp_apply]
    rw [hfil p hp, count_filter_if]
  rw [hmapeq, sum_if_key]
  by_cases hx : x ∈ cards
  · have hkey : getTopic x ∈ (group_by_topic cards).map Prod.fst := by
      obtain ⟨p, hpg, hpk⟩ := hcov x hx
      exact List.mem_map.mpr ⟨p, hpg, hpk⟩
    rw [List.count_eq_one_of_mem hnd hkey, Nat.mul_one]
  · rw [List.count_eq_zero.mpr hx, Nat.zero_mul]

/-- C9: every input card lies in exactly one bucket of group_by_topic, the
buckets together are a permutation (same multiset) of the input, and each
bucket preserves the relative input order of its cards. -/
theorem grouper_partition (cards : List Flashcard) :
    (∀ card ∈ cards, ∃! p, p ∈ group_by_topic cards ∧ card ∈ p.2) ∧
    ((group_by_topic cards).map Prod.snd).flatten.Perm cards ∧
    (∀ p ∈ group_by_topic cards, p.2.Sublist cards) := by
  obtain ⟨hnd, hfil, hcov⟩ := group_by_topic_inv cards
  refine ⟨?_, group_flatten_perm cards, ?_⟩
  · intro card hmem
    obtain ⟨p, hpg, hpk, hpc⟩ := mem_own_bucket hmem
    refine ⟨p, ⟨hpg, hpc⟩, ?_⟩
    rintro q ⟨hqg, hqc⟩
    have hq2 := hfil q hqg
    have hqkey : getTopic card = q.1 := by
      rw [hq2] at hqc
      exact eq_of_beq (List.mem_filter.mp hqc).2
    have hkeyeq : q.1 = p.1 := by rw [← hqkey, hpk]
    have hsnd : q.2 = p.2 := by
      rw [hq2, hfil p hpg, hkeyeq]
    exact Prod.ext hkeyeq hsnd
  · intro p hpg
    rw [hfil p hpg]
    exact List.filter_sublist cards

/-- A concrete flashcard whose topic field holds the empty string. -/
def cardEmptyTopic : Flashcard :=
  { question := none, answer := none, difficulty := none, topic := some "" }

/-- A concrete flashcard with no topic field at all. -/
def cardNoTopic : Flashcard :=
  { question := none, answer := none, difficulty := none, topic := none }

/-- C4 (counterexample): a card whose topic is the empty string is NOT put
into the Uncategorized bucket: dict.get only substitutes the default when
the key is absent, so the card lands in a bucket keyed by the empty string. -/
theorem grouper_empty_topic_counterexample :
    ¬ ∃ p ∈ group_by_topic [cardEmptyTopic], p.1 = "Uncategorized" ∧ cardEmptyTopic ∈ p.2 := by
  decide

/-- C4 (amended form): a card with an absent topic goes to the Uncategorized
bucket; a card whose topic is the empty string goes to the bucket keyed by
the empty string. -/
theorem grouper_sentinel_bucket (cards : List Flashcard) (card : Flashcard)
    (hmem : card ∈ cards) :
    (card.topic = none →
      ∃ p ∈ group_by_topic cards, p.1 = "Uncategorized" ∧ card ∈ p.2) ∧
    (card.topic = some "" →
      ∃ p ∈ group_by_topic cards, p.1 = "" ∧ card ∈ p.2) := by
  constructor
  · intro htop
    obtain ⟨p, hpg, hpk, hpc⟩ := mem_own_bucket hmem
    refine ⟨p, hpg, ?_, hpc⟩
    rw [hpk]
    unfold getTopic
    rw [htop]
    rfl
  · intro htop
    obtain ⟨p, hpg, hpk, hpc⟩ := mem_own_bucket hmem
    refine ⟨p, hpg, ?_, hpc⟩
    rw [hpk]
    unfold getTopic
    rw [htop]
    rfl

/-- Witness for the amended C4 theorem at a concrete input. -/
theorem grouper_sentinel_bucket_witness :
    (cardNoTopic.topic = none →
      ∃ p ∈ group_by_topic [cardNoTopic], p.1 = "Uncategorized" ∧ cardNoTopic ∈ p.2) ∧
    (cardNoTopic.topic = some "" →
      ∃ p ∈ group_by_topic [cardNoTopic], p.1 = "" ∧ cardNoTopic ∈ p.2) :=
  grouper_sentinel_bucket [cardNoTopic] cardNoTopic (by decide)

/-! ### JSON values and a model of json.loads -/

/-- JSON values as Python's json module produces them, restricted to the
fragment the pipeline exchanges: numbers are modelled as integers and
unicode escapes are left out (the payloads this development evaluates use
neither floats nor unicode escapes). -/
inductive Json where
  | obj (fields : List (String × Json)) : Json
  | arr (elems : List Json) : Json
  | str (s : String) : Json
  | num (n : Int) : Json
  | bool (b : Bool) : Json
  | null : Json

/-- Structural whitespace accepted between JSON tokens. -/
def jsonWs (c : Char) : Bool :=
  c = ' ' || c = '\t' || c = '\n' || c = '\r'

def skipWs (s : List Char) : List Char := s.dropWhile jsonWs

/-- The character denoted by a single-character JSON escape. -/
def escChar (e : Char) : Option Char :=
  if e = '"' then some '"'
  else if e = '\\' then some '\\'
  else if e = '/' then some '/'
  else if e = 'n' then some '\n'
  else if e = 't' then some '\t'
  else if e = 'r' then some '\r'
  else if e = 'b' then some '\x08'
  else if e = 'f' then some '\x0c'
  else none

/-- Parse the remainder of a JSON string literal after its opening quote,
returning the contents and the rest of the input. -/
def parseStringRest : List Char → Option (List Char × List Char)
  | [] => none
  | '\\' :: e :: rest =>
    match escChar e, parseStringRest rest with
    | some c, some (s, rem) => some (c :: s, rem)
    | _, _ => none
  | '"' :: rest => some ([], rest)
  | c :: rest =>
    match parseStringRest rest with
    | some (s, rem) => some (c :: s, rem)
    | none => none

/-- Accumulate a run of decimal digits. -/
def parseDigits : List Char → Nat → Nat × List Char
  | [], acc => (acc, [])
  | c :: rest, acc =>
    if c.isDigit then parseDigits rest (acc * 10 + (c.toNat - 48)) else (acc, c :: rest)

/-- Parse an integer JSON number (optional leading minus). -/
def parseNumber : List Char → Option (Int × List Char)
  | '-' :: c :: rest =>
    if c.isDigit then
      let r := parseDigits (c :: rest) 0
      some (-(r.1 : Int), r.2)
    else none
  | c :: rest =>
    if c.isDigit then
      let r := parseDigits (c :: rest) 0
      some ((r.1 : Int), r.2)
    else none
  | [] => none

/-- Build a dict from key/value pairs in textual order with Python setitem
semantics: a repeated key keeps its first position and takes its last value. -/
def buildDict (pairs : List (String × Json)) : List (String × Json) :=
  pairs.foldl (fun d kv =>
    if d.any (fun p => p.1 == kv.1) then
      d.map (fun p => if p.1 == kv.1 then (p.1, kv.2) else p)
    else d ++ [kv]) []

mutual

/-- Recursive-descent JSON value parser (fuel-indexed; the fuel given by
json_loads below is always sufficient for the concrete payloads evaluated
in this development). -/
def parseValue : Nat → List Char → Option (Json × List Char)
  | 0, _ => none
  | fuel + 1, s =>
    match skipWs s with
    | [] => none
    | c :: rest =>
      if c = '"' then
        match parseStringRest rest with
        | some (cs, rem) => some (Json.str (String.mk cs), rem)
        | none => none
      else if c = '\x7b' then parseObjBody fuel rest
      else if c = '[' then parseArrBody fuel rest
      else if c = 't' then
        if ['r', 'u', 'e'].isPrefixOf rest then some (Json.bool true, rest.drop 3) else none
      else if c = 'f' then
        if ['a', 'l', 's', 'e'].isPrefixOf rest then some (Json.bool false, rest.drop 4) else none
      else if c = 'n' then
        if ['u', 'l', 'l'].isPrefixOf rest then some (Json.null, rest.drop 3) else none
      else
        match parseNumber (c :: rest) with
        | some (n, rem) => some (Json.num n, rem)
        | none => none

/-- Parse an array body after the opening bracket. -/
def parseArrBody : Nat → List Char → Option (Json × List Char)
  | 0, _ => none
  | fuel + 1, s =>
    match skipWs s with
    | ']' :: rem => some (Json.arr [], rem)
    | _ =>
      match parseArrItems fuel s with
      | some (vs, rem) => some (Json.arr vs, rem)
      | none => none

/-- Parse one or more comma-separated array items followed by the closing
bracket. -/
def parseArrItems : Nat → List Char → Option (List Json × List Char)
  | 0, _ => none
  | fuel + 1, s =>
    match parseValue fuel s with
    | none => none
    | some (v, rem) =>
      match skipWs rem with
      | ',' :: r2 =>
        match parseArrItems fuel r2 with
        | some (vs, r3) => some (v :: vs, r3)
        | none => none
      | ']' :: r2 => some ([v], r2)
      | _ => none

/-- Parse an object body after the opening brace. -/
def parseObjBody : Nat → List Char → Option (Json × List Char)
  | 0, _ => none
  | fuel + 1, s =>
    match skipWs s with
    | '\x7d' :: rem => some (Json.obj [], rem)
    | _ =>
      match parseObjItems fuel s with
      | some (kvs, rem) => some (Json.obj (buildDict kvs), rem)
      | none => none

/-- Parse one or more comma-separated key/value pairs followed by the
closing brace, keeping the pairs in textual order. -/
def parseObjItems : Nat → List Char → Option (List (String × Json) × List Char)
  | 0, _ => none
  | fuel + 1, s =>
    match skipWs s with
    | '"' :: rest =>
      match parseStringRest rest with
      | none => none
      | some (key, rem) =>
        match skipWs rem with
        | ':' :: r2 =>
          match parseValue fuel r2 with
          | none => none
          | some (v, r3) =>
            match skipWs r3 with
            | ',' :: r4 =>
              match parseObjItems fuel r4 with
              | some (kvs, r5) => some ((String.mk key, v) :: kvs, r5)
              | none => none
            | '\x7d' :: r4 => some ([(String.mk key, v)], r4)
            | _ => none
        | _ => none
    | _ => none

end

/-- Model of json.loads on the modelled JSON fragment: parse one value and
require only whitespace after it. -/
def json_loads (s : String) : Except Unit Json :=
  match parseValue (2 * s.length + 2) s.data with
  | some (v, rem) => if skipWs rem = [] then Except.ok v else Except.error ()
  | none => Except.error ()

/-! ### Markdown fence stripping and payload extraction (lines 104-112) -/

/-- Index of the first occurrence of sep as a contiguous substring. -/
def findSubstrIdx (sep s : List Char) : Option Nat :=
  (List.range (s.length + 1)).find? (fun i => sep.isPrefixOf (s.drop i))

/-- Model of the Python substring containment test (the in operator). -/
def containsSubstr (sep s : List Char) : Bool := (findSubstrIdx sep s).isSome

def pySplitAux (sep : List Char) : Nat → List Char → List (List Char)
  | 0, s => [s]
  | fuel + 1, s =>
    match findSubstrIdx sep s with
    | none => [s]
    | some i => s.take i :: pySplitAux sep fuel (s.drop (i + sep.length))

/-- Model of Python str.split with a non-empty separator. -/
def pySplit (sep s : List Char) : List (List Char) := pySplitAux sep (s.length + 1) s

/-- Model of the fence-stripping on lines 106-109 of the source: if the text
mentions a json-tagged fence, take what stands between that tag and the next
fence; otherwise if it mentions any fence, take what follows the first one;
otherwise leave the text alone. -/
def strip_fences (s : List Char) : List Char :=
  if containsSubstr ("```json".data) s then
    (pySplit ("```".data) ((pySplit ("```json".data) s).getD 1 [])).getD 0 []
  else if containsSubstr ("```".data) s then
    (pySplit ("```".data) s).getD 1 []
  else s

/-- Dict lookup (Python subscript on the parsed object). -/
def objLookup (fields : List (String × Json)) (key : String) : Option Json :=
  match fields.find? (fun p => p.1 == key) with
  | some p => some p.2
  | none => none

/-- Model of lines 104-111 of the source: strip fences, json.loads the
text, subscript the result with the flashcards key.  The error outcome
stands for any exception raised inside the try block (invalid JSON, a
non-dict toplevel value, or a missing key); the value under the key is
returned without any inspection. -/
def extract_flashcards (raw : String) : Except Unit Json :=
  match json_loads (String.mk (strip_fences raw.data)) with
  | Except.error _ => Except.error ()
  | Except.ok (Json.obj fields) =>
    match objLookup fields "flashcards" with
    | some v => Except.ok v
    | none => Except.error ()
  | Except.ok _ => Except.error ()

/-- The per-record validation predicate asserted by the spec: all four keys
present and difficulty among the three allowed values.  This definition
follows the spec's words; the source has no counterpart, which is what C5
is about. -/
def specValidRecord (j : Json) : Bool :=
  match j with
  | Json.obj fields =>
    (objLookup fields "question").isSome &&
    (objLookup fields "answer").isSome &&
    (match objLookup fields "difficulty" with
     | some (Json.str d) => d == "Easy" || d == "Medium" || d == "Hard"
     | _ => false) &&
    (objLookup fields "topic").isSome
  | _ => false

/-- A response whose flashcards array holds a record with no fields. -/
def c5CexRaw : String := "\x7b\"flashcards\": [\x7b\x7d]\x7d"

/-- C5 (counterexample): on a response whose flashcards array holds one
record with no fields at all, the parser returns that record as-is; the
source performs no per-record validation, so an invalid record reaches the
returned sequence. -/
theorem parser_validation_counterexample :
    extract_flashcards c5CexRaw = Except.ok (Json.arr [Json.obj []]) ∧
    specValidRecord (Json.obj []) = false :=
  ⟨rfl, rfl⟩

/-- C5 (amended form): the parser performs no per-record validation at all:
whatever JSON value sits under the flashcards key is returned exactly as
parsed. -/
theorem parser_returns_payload_unvalidated (raw : String)
    (fields : List (String × Json)) (v : Json)
    (hload : json_loads (String.mk (strip_fences raw.data)) = Except.ok (Json.obj fields))
    (hlook : objLookup fields "flashcards" = some v) :
    extract_flashcards raw = Except.ok v := by
  simp only [extract_flashcards, hload, hlook]

/-- Witness for the amended C5 theorem at a concrete input. -/
theorem parser_returns_payload_unvalidated_witness :
    extract_flashcards c5CexRaw = Except.ok (Json.arr [Json.obj []]) :=
  parser_returns_payload_unvalidated c5CexRaw [("flashcards", Json.arr [Json.obj []])]
    (Json.arr [Json.obj []]) (by rfl) (by rfl)

/-- A valid-JSON response whose flashcards value is a number. -/
def c6CexRaw : String := "\x7b\"flashcards\": 42\x7d"

/-- C6 (counterexample): a valid-JSON response whose flashcards value is the
number 42 — not a sequence — does NOT make the parser fail: the subscript
succeeds and the number itself is returned as the chunk's result, so "the
value is not a sequence" is not a failure condition of the code. -/
theorem parser_nonsequence_counterexample :
    extract_flashcards c6CexRaw = Except.ok (Json.num 42) ∧
    (∀ elems, Json.num 42 ≠ Json.arr elems) :=
  ⟨rfl, fun _ h => Json.noConfusion h⟩

/-- C6 (amended form): extraction fails exactly when the fence-stripped text
is not valid JSON, or the parsed value is not an object, or the object lacks
the flashcards key; a non-sequence value under the key is returned, not
rejected. -/
theorem parser_failure_conditions (raw : String) :
    extract_flashcards raw = Except.error () ↔
      (json_loads (String.mk (strip_fences raw.data)) = Except.error () ∨
       (∃ v, json_loads (String.mk (strip_fences raw.data)) = Except.ok v ∧
          ∀ fields, v ≠ Json.obj fields) ∨
       (∃ fields, json_loads (String.mk (strip_fences raw.data)) = Except.ok (Json.obj fields) ∧
          objLookup fields "flashcards" = none)) := by
  cases hload : json_loads (String.mk (strip_fences raw.data)) with
  | error e =>
    cases e
    constructor
    · intro _
      exact Or.inl rfl
    · intro _
      unfold extract_flashcards
      rw [hload]
  | ok v =>
    cases v with
    | obj fields =>
      cases hlook : objLookup fields "flashcards" with
      | some x =>
        constructor
        · intro hext
          exfalso
          simp only [extract_flashcards, hload, hlook] at hext
          cases hext
        · rintro (h1 | ⟨w, hw, hno⟩ | ⟨fields2, hf, hnone⟩)
          · cases h1
          · injection hw with h2
            exact (hno fields h2.symm).elim
          · injection hf with h2
            injection h2 with h3
            subst h3
            rw [hlook] at hnone
            cases hnone
      | none =>
        constructor
        · intro _
          exact Or.inr (Or.inr ⟨fields, rfl, hlook⟩)
        · intro _
          simp only [extract_flashcards, hload, hlook]
    | null =>
      constructor
      · intro _
        exact Or.inr (Or.inl ⟨Json.null, rfl, fun _ h => Json.noConfusion h⟩)
      · intro _
        unfold extract_flashcards
        rw [hload]
    | bool b =>
      constructor
      · intro _
        exact Or.inr (Or.inl ⟨Json.bool b, rfl, fun _ h => Json.noConfusion h⟩)
      · intro _
        unfold extract_flashcards
        rw [hload]
    | num n =>
      constructor
      · intro _
        exact Or.inr (Or.inl ⟨Json.num n, rfl, fun _ h => Json.noConfusion h⟩)
      · intro _
        unfold extract_flashcards
        rw [hload]
    | str s =>
      constructor
      · intro _
        exact Or.inr (Or.inl ⟨Json.str s, rfl, fun _ h => Json.noConfusion h⟩)
      · intro _
        unfold extract_flashcards
        rw [hload]
    | arr elems =>
      constructor
      · intro _
        exact Or.inr (Or.inl ⟨Json.arr elems, rfl, fun _ h => Json.noConfusion h⟩)
      · intro _
        unfold extract_flashcards
        rw [hload]

/-! ### Subject guides and prompt building (lines 21-28 and 55-90) -/

/-- The subject guide catalog built in the constructor (lines 21-28 of the
source), as an insertion-ordered association list. -/
def subject_guides : List (String × String) :=
  [("General", "Generate clear, concise flashcards covering key concepts."),
   ("Biology", "Focus on biological terms, processes, and relationships."),
   ("History", "Emphasize dates, events, causes, and historical figures."),
   ("Computer Science", "Cover algorithms, data structures, programming concepts, and definitions."),
   ("Medicine", "Include anatomical terms, medical conditions, and treatments."),
   ("Languages", "Create vocabulary cards with word on front, translation and example sentence on back.")]

/-- Model of self.subject_guides.get(subject, self.subject_guides of General)
on line 55 of the source. -/
def prompt_guide (subject : String) : String :=
  match subject_guides.find? (fun p => p.1 == subject) with
  | some p => p.2
  | none => "Generate clear, concise flashcards covering key concepts."

/-- The system prompt f-string of lines 57-85 of the source, transcribed
byte for byte (the doubled braces of the f-string denote literal braces;
the blank-looking lines inside the triple-quoted string are exactly eight
spaces, from the source indentation). -/
def system_prompt (subject : String) : String :=
  "You are an expert educational assistant that creates high-quality flashcards from educational content.\n        \n        "
  ++ prompt_guide subject
  ++ "\n        \n        Rules:\n        - Generate "
  ++ toString FLASHCARDS_PER_CHUNK
  ++ " flashcards per chunk\n        - Each flashcard must have a clear question and a concise answer\n        - Answers should be self-contained and factually accurate\n        - Include difficulty level (Easy, Medium, Hard)\n        - Identify the main topic for each flashcard\n        - Format as JSON with keys: question, answer, difficulty, topic\n        \n        Example:\n        \x7b\n            \"flashcards\": [\n                \x7b\n                    \"question\": \"What is the powerhouse of the cell?\",\n                    \"answer\": \"The mitochondrion is the powerhouse of the cell.\",\n                    \"difficulty\": \"Easy\",\n                    \"topic\": \"Cell Biology\"\n                \x7d,\n                \x7b\n                    \"question\": \"What are the three stages of cellular respiration?\",\n                    \"answer\": \"The three stages are glycolysis, the Krebs cycle, and oxidative phosphorylation.\",\n                    \"difficulty\": \"Medium\",\n                    \"topic\": \"Cellular Respiration\"\n                \x7d\n            ]\n        \x7d"

/-- The user prompt f-string of lines 87-90 of the source, transcribed byte
for byte. -/
def user_prompt (content : String) : String :=
  "Please create flashcards from the following educational content:\n        \n        "
  ++ content
  ++ "\n        "

/-- One chat message of the request on lines 95-98. -/
structure ChatMessage where
  role : String
  content : String

/-- The request sent by openai.ChatCompletion.create on lines 93-100 of the
source: model name, the two role-tagged messages, and the token budget
MAX_TOKENS - len(system_prompt) - len(user_prompt), computed in unbounded
integers exactly as Python does, with no clamping.  The sampling temperature
0.3 is a float constant no claim touches and is not modelled. -/
structure ChatRequest where
  model : String
  messages : List ChatMessage
  max_tokens : Int

def mkRequest (subject content : String) : ChatRequest :=
  ⟨DEFAULT_MODEL,
   [⟨"system", system_prompt subject⟩, ⟨"user", user_prompt content⟩],
   MAX_TOKENS - ((system_prompt subject).length : Int) - ((user_prompt content).length : Int)⟩

/-- C3 (what the code actually does, at the spec's failing edge): for the
General subject and a full-size chunk of 3000 characters, the token budget
the source passes as max_tokens is negative — the arithmetic
MAX_TOKENS - len(system_prompt) - len(user_prompt) is sent with no positive
clamp, contradicting the spec's mandated clamping. -/
theorem token_budget_not_clamped :
    (mkRequest "General" (String.mk (List.replicate 3000 'a'))).max_tokens < 0 := by
  have hsys : (system_prompt "General").length = 1259 := by decide
  have huser : (user_prompt (String.mk (List.replicate 3000 'a'))).length = 3091 := by
    unfold user_prompt
    rw [String.length_append, String.length_append]
    have hc : (String.mk (List.replicate 3000 'a')).length = 3000 := by
      show (List.replicate 3000 'a').length = 3000
      exact List.length_replicate _ _
    rw [hc]
    decide
  show MAX_TOKENS - ((system_prompt "General").length : Int)
      - ((user_prompt (String.mk (List.replicate 3000 'a'))).length : Int) < 0
  rw [hsys, huser]
  decide

/-! ### Model invocation and the orchestrator (lines 92-129) -/

/-- Model of FlashcardGenerator.generate_flashcards (lines 53-115 of the
source) for one chunk: build the prompts and the request, consult the
service — modelled as an oracle indexed by the call number, so distinct
calls may answer differently or fail — and extract the payload.  Both an
invocation error and an extraction error are caught by the try/except and
turned into the empty list (lines 113-115); a successful extraction returns
the value under the flashcards key as-is, whatever its shape. -/
def generate_flashcards (oracle : Nat → ChatRequest → Except Unit String)
    (i : Nat) (subject chunk : String) : Json :=
  match oracle i (mkRequest subject chunk) with
  | Except.error _ => Json.arr []
  | Except.ok raw =>
    match extract_flashcards raw with
    | Except.error _ => Json.arr []
    | Except.ok v => v

/-- Python list.extend semantics on a JSON value: extending with a list
appends its elements; a string is iterable and contributes its characters,
a dict its keys; numbers, booleans and null are not iterable and raise
TypeError, modelled as the error outcome. -/
def pyExtend (acc : List Json) (v : Json) : Except Unit (List Json) :=
  match v with
  | Json.arr elems => Except.ok (acc ++ elems)
  | Json.str s => Except.ok (acc ++ s.data.map (fun c => Json.str (String.mk [c])))
  | Json.obj fields => Except.ok (acc ++ fields.map (fun p => Json.str p.1))
  | _ => Except.error ()

/-- The for loop of process_content (lines 124-126 of the source):
all_flashcards.extend(...) per enumerated chunk, in order. -/
def extendLoop (oracle : Nat → ChatRequest → Except Unit String) (subject : String) :
    List (Nat × List Char) → List Json → Except Unit (List Json)
  | [], acc => Except.ok acc
  | p :: rest, acc =>
    match pyExtend acc (generate_flashcards oracle p.1 subject (String.mk p.2)) with
    | Except.error e => Except.error e
    | Except.ok acc2 => extendLoop oracle subject rest acc2

/-- Model of FlashcardGenerator.process_content (lines 117-129 of the
source): chunk the content once, then run the extend loop over the
enumerated chunks starting from the empty accumulator. -/
def process_content (oracle : Nat → ChatRequest → Except Unit String)
    (subject content : String) : Except Unit (List Json) :=
  extendLoop oracle subject ((chunk_content CHUNK_SIZE content.data).enum) []

/-- The flashcard list a chunk contributes. -/
def cardsOf (v : Json) : List Json :=
  match v with
  | Json.arr elems => elems
  | _ => []

theorem extendLoop_all_arr (oracle : Nat → ChatRequest → Except Unit String)
    (subject : String) :
    ∀ (l : List (Nat × List Char)),
      (∀ p ∈ l, ∃ elems, generate_flashcards oracle p.1 subject (String.mk p.2) = Json.arr elems) →
      ∀ acc, extendLoop oracle subject l acc
        = Except.ok (acc ++ (l.map
            (fun p => cardsOf (generate_flashcards oracle p.1 subject (String.mk p.2)))).flatten) := by
  intro l
  induction l with
  | nil =>
    intro _ acc
    simp [extendLoop]
  | cons p t ih =>
    intro h acc
    obtain ⟨elems, he⟩ := h p (List.mem_cons_self _ _)
    have hrest := ih (fun q hq => h q (List.mem_cons_of_mem _ hq)) (acc ++ elems)
    simp only [extendLoop, he, pyExtend]
    rw [hrest, List.map_cons, List.flatten_cons, he]
    simp only [cardsOf, List.append_assoc]

/-- C2: whenever every chunk's outcome is list-shaped (which holds in
particular when the invocation or the extraction fails, since the except
then substitutes the empty list), the run completes without aborting and
returns exactly the concatenation of the per-chunk lists in chunk-index
order; and a chunk whose invocation or extraction failed contributes the
empty list. -/
theorem orchestrator_error_neutralization
    (oracle : Nat → ChatRequest → Except Unit String) (subject content : String)
    (harr : ∀ p ∈ (chunk_content CHUNK_SIZE content.data).enum,
      ∃ elems, generate_flashcards oracle p.1 subject (String.mk p.2) = Json.arr elems) :
    process_content oracle subject content
      = Except.ok (((chunk_content CHUNK_SIZE content.data).enum.map
          (fun p => cardsOf (generate_flashcards oracle p.1 subject (String.mk p.2)))).flatten) ∧
    (∀ p ∈ (chunk_content CHUNK_SIZE content.data).enum,
      (oracle p.1 (mkRequest subject (String.mk p.2)) = Except.error () ∨
       (∃ raw, oracle p.1 (mkRequest subject (String.mk p.2)) = Except.ok raw ∧
          extract_flashcards raw = Except.error ())) →
      generate_flashcards oracle p.1 subject (String.mk p.2) = Json.arr []) := by
  constructor
  · have h := extendLoop_all_arr oracle subject
      ((chunk_content CHUNK_SIZE content.data).enum) harr []
    rw [List.nil_append] at h
    exact h
  · rintro p _ (hfail | ⟨raw, hok, hext⟩)
    · simp only [generate_flashcards, hfail]
    · simp only [generate_flashcards, hok, hext]

/-- An oracle on which every invocation fails. -/
def failOracle : Nat → ChatRequest → Except Unit String := fun _ _ => Except.error ()

/-- Witness for the C2 theorem at a concrete input: with a service that
fails on every call, processing a two-character content completes and
returns the empty flashcard list. -/
theorem orchestrator_error_neutralization_witness :
    process_content failOracle "General" "ab" = Except.ok [] :=
  ((orchestrator_error_neutralization failOracle "General" "ab"
    (fun _ _ => ⟨[], rfl⟩)).1).trans (by rfl)

end Flashgen
